import Mathlib

/-!
Verification of the flashcards program (src/flashcards.py).

Python strings are modelled as lists of characters (`Str`); a text file is
modelled as its list of lines (the program writes one record per line with
`print` and reads with line iteration in text mode).  Python dictionaries
(which preserve insertion order and update keys in place) are modelled as
association lists with dict-style insertion.  Machine-level behaviour that can
raise in Python (`del` on a missing key, `int()` on a malformed field,
division by zero) is modelled with explicit error constructors.
-/

namespace Flashcards

/-- A Python string, modelled as its list of characters. -/
abbrev Str := List Char

/-- The whitespace characters removed by Python `str.strip()` (ASCII part). -/
def isWS (c : Char) : Bool :=
  c = ' ' || c = '\t' || c = '\n' || c = '\x0d' || c = '\x0b' || c = '\x0c'

/-- Python `str.strip()`: drop whitespace from both ends. -/
def pyStrip (l : Str) : Str :=
  ((l.dropWhile isWS).reverse.dropWhile isWS).reverse

/-- The field separator `=|=` used in flashcard files. -/
def delim : Str := ['=', '|', '=']

/-- Prepend a character to the first chunk of a split result. -/
def consHead (c : Char) : List Str → List Str
  | [] => [[c]]
  | t :: ts => (c :: t) :: ts

/-- Python `str.split('=|=')`: split at each non-overlapping occurrence of
the separator, scanning left to right. -/
def splitDelim : Str → List Str
  | [] => [[]]
  | '=' :: '|' :: '=' :: rest => [] :: splitDelim rest
  | c :: rest => consHead c (splitDelim rest)

/-- The decimal digit character for a value below ten. -/
def digitChar (r : Nat) : Char :=
  if r = 0 then '0' else if r = 1 then '1' else if r = 2 then '2'
  else if r = 3 then '3' else if r = 4 then '4' else if r = 5 then '5'
  else if r = 6 then '6' else if r = 7 then '7' else if r = 8 then '8' else '9'

/-- The numeric value of a decimal digit character. -/
def digToVal (c : Char) : Option Nat :=
  if c = '0' then some 0 else if c = '1' then some 1 else if c = '2' then some 2
  else if c = '3' then some 3 else if c = '4' then some 4 else if c = '5' then some 5
  else if c = '6' then some 6 else if c = '7' then some 7 else if c = '8' then some 8
  else if c = '9' then some 9 else none

/-- Value of a nonempty all-digit string, `none` otherwise. -/
def digitsVal? (l : Str) : Option Nat :=
  match l with
  | [] => none
  | _ :: _ => l.foldl (fun acc c => acc.bind fun a => (digToVal c).map fun d => 10 * a + d)
      (some 0)

/-- Decimal digits of a natural number, most significant first; `fuel`
bounds the recursion and is always sufficient at the call site. -/
def digitsGo : Nat → Nat → Str
  | 0, _ => []
  | fuel + 1, n => if n < 10 then [digitChar n] else digitsGo fuel (n / 10) ++ [digitChar (n % 10)]

/-- Decimal representation of a natural number. -/
def natDigits (n : Nat) : Str := digitsGo (n + 1) n

/-- Python `str(z)` for an integer, as written by the f-strings of the
program. -/
def intToStr (z : Int) : Str :=
  if z < 0 then '-' :: natDigits (-z).toNat else natDigits z.toNat

/-- Optional sign followed by a nonempty digit string. -/
def signedVal? : Str → Option Int
  | [] => none
  | c :: rest =>
    if c = '-' then (digitsVal? rest).map fun v => -(v : Int)
    else if c = '+' then (digitsVal? rest).map fun v => (v : Int)
    else (digitsVal? (c :: rest)).map fun v => (v : Int)

/-- Python `int(s)`: strip whitespace, optional sign, then a nonempty
digit string; `none` models the `ValueError` raise. -/
def strToInt? (l : Str) : Option Int := signedVal? (pyStrip l)

/-- Python `str.lower()` (ASCII case folding), used by the quiz comparison. -/
def pyLower (l : Str) : Str := l.map Char.toLower

end Flashcards

namespace Flashcards

theorem splitDelim_delim (rest : Str) :
    splitDelim ('=' :: '|' :: '=' :: rest) = [] :: splitDelim rest := rfl

theorem splitDelim_cons_ne (c : Char) (rest : Str)
    (h : ∀ r : Str, c :: rest ≠ '=' :: '|' :: '=' :: r) :
    splitDelim (c :: rest) = consHead c (splitDelim rest) := by
  rw [splitDelim.eq_def]
  split
  · simp_all
  · rename_i r heq
    exact absurd heq (h r)
  · rename_i c' rest' hne heq
    injection heq with h1 h2
    subst h1; subst h2; rfl

/-- Does the string start with the separator `=|=`? -/
def startsDelim : Str → Bool
  | '=' :: '|' :: '=' :: _ => true
  | _ => false

/-- `cleanChunk t` holds when the separator occurs in `t ++ delim` only as
its final suffix; such a chunk is recovered intact by `splitDelim`. -/
def cleanChunk : Str → Bool
  | [] => true
  | c :: rest => !startsDelim (c :: (rest ++ delim)) && cleanChunk rest

theorem splitDelim_clean_append (t rest : Str) (h : cleanChunk t = true) :
    splitDelim (t ++ (delim ++ rest)) = t :: splitDelim rest := by
  induction t with
  | nil =>
    show splitDelim ('=' :: '|' :: '=' :: rest) = [] :: splitDelim rest
    exact splitDelim_delim rest
  | cons c t' ih =>
    rw [cleanChunk] at h
    have h1 : startsDelim (c :: (t' ++ delim)) = false := by
      rcases Bool.and_eq_true .. |>.mp h with ⟨hh, _⟩
      simpa using hh
    have h2 : cleanChunk t' = true := (Bool.and_eq_true .. |>.mp h).2
    have hne : ∀ r : Str, c :: (t' ++ (delim ++ rest)) ≠ '=' :: '|' :: '=' :: r := by
      intro r heq
      injection heq with hc htail
      subst hc
      cases t' with
      | nil => simp [delim] at htail
      | cons x t'' =>
        injection htail with hx htail2
        subst hx
        cases t'' with
        | nil => simp [startsDelim, delim] at h1
        | cons y t''' =>
          injection htail2 with hy _
          subst hy
          simp [startsDelim, delim] at h1
    rw [List.cons_append, splitDelim_cons_ne c _ hne, ih h2]
    rfl

theorem splitDelim_no_eq (l : Str) (h : ∀ ch ∈ l, ch ≠ '=') :
    splitDelim l = [l] := by
  induction l with
  | nil => rfl
  | cons c rest ih =>
    have hc : c ≠ '=' := h c (by simp)
    rw [splitDelim_cons_ne c rest (by intro r heq; injection heq with h1 _; exact hc h1)]
    rw [ih (fun ch hch => h ch (by simp [hch]))]
    rfl

theorem splitDelim_line (t d e : Str) (ht : cleanChunk t = true) (hd : cleanChunk d = true)
    (he : ∀ ch ∈ e, ch ≠ '=') :
    splitDelim (t ++ (delim ++ (d ++ (delim ++ e)))) = [t, d, e] := by
  rw [splitDelim_clean_append t _ ht, splitDelim_clean_append d _ hd, splitDelim_no_eq e he]

theorem digitChar_facts (r : Nat) :
    digitChar r ≠ '=' ∧ digitChar r ≠ '-' ∧ digitChar r ≠ '+' ∧ isWS (digitChar r) = false := by
  unfold digitChar
  repeat' split
  all_goals decide

theorem digToVal_digitChar (r : Nat) (h : r < 10) : digToVal (digitChar r) = some r := by
  interval_cases r <;> decide

theorem digitsVal?_snoc (l : Str) (r : Nat) (hr : r < 10) (v : Nat)
    (h : digitsVal? l = some v) :
    digitsVal? (l ++ [digitChar r]) = some (10 * v + r) := by
  cases l with
  | nil => simp [digitsVal?] at h
  | cons c rest =>
    have h' : List.foldl (fun acc c => acc.bind fun a => (digToVal c).map fun d => 10 * a + d)
        (some 0) (c :: rest) = some v := h
    show List.foldl (fun acc c => acc.bind fun a => (digToVal c).map fun d => 10 * a + d)
        (some 0) ((c :: rest) ++ [digitChar r]) = some (10 * v + r)
    rw [List.foldl_append, h']
    simp [digToVal_digitChar r hr]

theorem digitsGo_spec (fuel n : Nat) (h : n < fuel) :
    digitsGo fuel n ≠ [] ∧ (∀ c ∈ digitsGo fuel n, ∃ r, r < 10 ∧ c = digitChar r) ∧
      digitsVal? (digitsGo fuel n) = some n := by
  induction fuel generalizing n with
  | zero => omega
  | succ fuel ih =>
    by_cases hn : n < 10
    · rw [digitsGo, if_pos hn]
      refine ⟨by simp, ?_, ?_⟩
      · intro c hc
        simp only [List.mem_singleton] at hc
        exact ⟨n, hn, hc⟩
      · simp [digitsVal?, digToVal_digitChar n hn]
    · rw [digitsGo, if_neg hn]
      have hdiv : n / 10 < n := Nat.div_lt_self (by omega) (by omega)
      have hlt : n / 10 < fuel := by omega
      obtain ⟨hne, hdig, hval⟩ := ih (n / 10) hlt
      refine ⟨by simp, ?_, ?_⟩
      · intro c hc
        rcases List.mem_append.mp hc with h1 | h1
        · exact hdig c h1
        · simp only [List.mem_singleton] at h1
          exact ⟨n % 10, by omega, h1⟩
      · rw [digitsVal?_snoc _ _ (by omega) _ hval]
        congr 1
        omega

theorem natDigits_spec (n : Nat) :
    natDigits n ≠ [] ∧ (∀ c ∈ natDigits n, ∃ r, r < 10 ∧ c = digitChar r) ∧
      digitsVal? (natDigits n) = some n := digitsGo_spec (n + 1) n (by omega)

theorem dropWhile_eq_self_of_head (p : Char → Bool) (l : Str)
    (h : ∀ c, l.head? = some c → p c = false) : l.dropWhile p = l := by
  cases l with
  | nil => rfl
  | cons c rest =>
    rw [List.dropWhile_cons, h c rfl]
    simp

theorem pyStrip_eq_self (l : Str)
    (h1 : ∀ c, l.head? = some c → isWS c = false)
    (h2 : ∀ c, l.getLast? = some c → isWS c = false) : pyStrip l = l := by
  unfold pyStrip
  rw [dropWhile_eq_self_of_head _ _ h1]
  rw [dropWhile_eq_self_of_head _ _ (by
    intro c hc
    rw [List.head?_reverse] at hc
    exact h2 c hc)]
  exact List.reverse_reverse l

end Flashcards

namespace Flashcards

theorem natDigits_ne_nil (n : Nat) : natDigits n ≠ [] := (natDigits_spec n).1

theorem natDigits_digit (n : Nat) :
    ∀ c ∈ natDigits n, ∃ r, r < 10 ∧ c = digitChar r := (natDigits_spec n).2.1

theorem intToStr_ne_nil (z : Int) : intToStr z ≠ [] := by
  unfold intToStr; split
  · simp
  · exact natDigits_ne_nil _

theorem intToStr_no_eq (z : Int) : ∀ c ∈ intToStr z, c ≠ '=' := by
  intro c hc
  unfold intToStr at hc
  split at hc
  · rcases List.mem_cons.mp hc with rfl | hc'
    · decide
    · obtain ⟨r, _, rfl⟩ := natDigits_digit _ c hc'
      exact (digitChar_facts r).1
  · obtain ⟨r, _, rfl⟩ := natDigits_digit _ c hc
    exact (digitChar_facts r).1

theorem intToStr_head_not_ws (z : Int) :
    ∀ c, (intToStr z).head? = some c → isWS c = false := by
  intro c hc
  unfold intToStr at hc
  split at hc
  · simp only [List.head?_cons, Option.some.injEq] at hc
    subst hc; decide
  · obtain ⟨r, _, rfl⟩ := natDigits_digit _ c (List.mem_of_mem_head? hc)
    exact (digitChar_facts r).2.2.2

theorem intToStr_last_not_ws (z : Int) :
    ∀ c, (intToStr z).getLast? = some c → isWS c = false := by
  intro c hc
  unfold intToStr at hc
  split at hc
  · rw [show ('-' :: natDigits (-z).toNat) = ['-'] ++ natDigits (-z).toNat from rfl,
      List.getLast?_append_of_ne_nil _ (natDigits_ne_nil _)] at hc
    obtain ⟨r, _, rfl⟩ := natDigits_digit _ c (List.mem_of_mem_getLast? hc)
    exact (digitChar_facts r).2.2.2
  · obtain ⟨r, _, rfl⟩ := natDigits_digit _ c (List.mem_of_mem_getLast? hc)
    exact (digitChar_facts r).2.2.2

theorem strToInt?_intToStr (z : Int) : strToInt? (intToStr z) = some z := by
  have hstrip : pyStrip (intToStr z) = intToStr z :=
    pyStrip_eq_self _ (intToStr_head_not_ws z) (intToStr_last_not_ws z)
  unfold strToInt?
  rw [hstrip]
  by_cases hz : z < 0
  · have hrep : intToStr z = '-' :: natDigits (-z).toNat := by
      unfold intToStr; rw [if_pos hz]
    rw [hrep]
    have ht : (((-z).toNat : Nat) : Int) = -z := Int.toNat_of_nonneg (by omega)
    simp [signedVal?, (natDigits_spec (-z).toNat).2.2, ht]
  · have hrep : intToStr z = natDigits z.toNat := by
      unfold intToStr; rw [if_neg hz]
    rw [hrep]
    rcases hnd : natDigits z.toNat with _ | ⟨c, rest⟩
    · exact absurd hnd (natDigits_ne_nil _)
    · have hcmem : c ∈ natDigits z.toNat := by rw [hnd]; simp
      obtain ⟨r, hr, hcr⟩ := natDigits_digit _ c hcmem
      have hc1 : ¬ c = '-' := by rw [hcr]; exact (digitChar_facts r).2.1
      have hc2 : ¬ c = '+' := by rw [hcr]; exact (digitChar_facts r).2.2.1
      have ht : ((z.toNat : Nat) : Int) = z := Int.toNat_of_nonneg (by omega)
      simp only [signedVal?, if_neg hc1, if_neg hc2, ← hnd, (natDigits_spec z.toNat).2.2,
        Option.map_some']
      simp [ht]

end Flashcards

namespace Flashcards

/-- A flashcard: term, definition and error count (src/flashcards.py:24-58). -/
structure Flashcard where
  term : Str
  definition : Str
  error_count : Int
  deriving DecidableEq, Repr

/-- The two registries of the program: `flashcards` maps term to card,
`definitions` maps definition to term (src/flashcards.py:40-41). -/
structure CardStore where
  flashcards : List (Str × Flashcard)
  definitions : List (Str × Str)
  deriving DecidableEq, Repr

/-- The initial state: both dictionaries empty. -/
def emptyStore : CardStore := ⟨[], []⟩

/-- Python `d[k]` lookup, `none` on a missing key. -/
def alookup {α : Type} (k : Str) : List (Str × α) → Option α
  | [] => none
  | (k', v) :: rest => if k' = k then some v else alookup k rest

/-- Python `d[k] = v`: update the value in place if the key exists,
otherwise append the new binding (insertion order preserved). -/
def dinsert {α : Type} (k : Str) (v : α) : List (Str × α) → List (Str × α)
  | [] => [(k, v)]
  | (k', v') :: rest => if k' = k then (k, v) :: rest else (k', v') :: dinsert k v rest

/-- Python `del d[k]` on a present key: remove its binding. -/
def derase {α : Type} (k : Str) : List (Str × α) → List (Str × α)
  | [] => []
  | (k', v') :: rest => if k' = k then rest else (k', v') :: derase k rest

/-- The two re-prompt conditions of `add`. -/
inductive AddErr
  | duplicateTerm
  | duplicateDefinition
  deriving DecidableEq, Repr

/-- `add` (src/flashcards.py:74-98): reject an existing term or definition,
otherwise create the card with error count 0; the `Flashcard` constructor
also records the definition in the secondary mapping. -/
def add (s : CardStore) (t d : Str) : Except AddErr CardStore :=
  if (alookup t s.flashcards).isSome then .error .duplicateTerm
  else if (alookup d s.definitions).isSome then .error .duplicateDefinition
  else .ok ⟨dinsert t ⟨t, d, 0⟩ s.flashcards, dinsert d t s.definitions⟩

/-- Result of `remove`: the card may be missing; if present, the source
deletes from the primary mapping and then from the secondary mapping, where
a stale secondary index would make the second `del` raise `KeyError`
(`keyError` carries the store after the first deletion alone). -/
inductive RemoveResult
  | notFound (s : CardStore)
  | removed (s : CardStore)
  | keyError (s : CardStore)
  deriving DecidableEq, Repr

/-- `remove` (src/flashcards.py:101-113). -/
def remove (s : CardStore) (t : Str) : RemoveResult :=
  match alookup t s.flashcards with
  | none => .notFound s
  | some card =>
    match alookup card.definition s.definitions with
    | some _ => .removed ⟨derase t s.flashcards, derase card.definition s.definitions⟩
    | none => .keyError ⟨derase t s.flashcards, s.definitions⟩

/-- Outcome of `import_file`: missing file, crash on a malformed line (the
store keeps the records loaded before the bad line), or success with the
number of loaded records. -/
inductive ImportResult
  | fileNotFound (s : CardStore)
  | crashed (s : CardStore)
  | ok (s : CardStore) (n : Nat)
  deriving DecidableEq, Repr

/-- Parse one line of a flashcard file: `strip`, split on `=|=`, exactly
three fields with an integer error count (src/flashcards.py:130). -/
def parseLine (line : Str) : Option (Str × Str × Int) :=
  match splitDelim (pyStrip line) with
  | [t, d, e] => (strToInt? e).map fun ec => (t, d, ec)
  | _ => none

/-- Insert one imported record: the `Flashcard` constructor records the
definition in the secondary mapping, then the card is stored under its term
(src/flashcards.py:131). -/
def storeRecord (s : CardStore) (t d : Str) (ec : Int) : CardStore :=
  ⟨dinsert t ⟨t, d, ec⟩ s.flashcards, dinsert d t s.definitions⟩

/-- The line loop of `import_file` (src/flashcards.py:127-132). -/
def importGo : List Str → CardStore → Nat → ImportResult
  | [], s, n => .ok s n
  | line :: rest, s, n =>
    match parseLine line with
    | some (t, d, ec) => importGo rest (storeRecord s t d ec) (n + 1)
    | none => .crashed s

/-- `import_file` (src/flashcards.py:116-134); the file system is modelled
as `none` (the path does not exist) or `some lines` (the file's lines). -/
def import_file (file : Option (List Str)) (s : CardStore) : ImportResult :=
  match file with
  | none => .fileNotFound s
  | some lines => importGo lines s 0

/-- `export` (src/flashcards.py:137-148): one `term=|=definition=|=count`
line per card, in iteration order of the primary mapping. -/
def exportLines (s : CardStore) : List Str :=
  s.flashcards.map fun p =>
    p.2.term ++ (delim ++ (p.2.definition ++ (delim ++ intToStr p.2.error_count)))

/-- Outcome of one quiz question (src/flashcards.py:172-179). -/
inductive QuizResult
  | correct
  | wrongOther (correctDef : Str) (otherTerm : Str)
  | wrong (correctDef : Str)
  deriving DecidableEq, Repr

/-- With an empty store and `n > 0`, the replication count
`n // len(flashcards)` divides by zero and `ZeroDivisionError` is raised
(src/flashcards.py:164); nothing in the program catches it. -/
inductive AskError
  | zeroDivisionError
  deriving DecidableEq, Repr

/-- Selection of the `n` cards to present (src/flashcards.py:160-167): with
`n` above the card count, whole passes over the current card list truncated
to `n`; otherwise a random sample, modelled by the `sample` argument. -/
def askSelection (sample : List Flashcard → Nat → List Flashcard)
    (s : CardStore) (n : Nat) : Except AskError (List Flashcard) :=
  let cards := s.flashcards.map (·.2)
  if cards.length < n then
    if cards.length = 0 then .error .zeroDivisionError
    else .ok ((List.replicate (n / cards.length + 1) cards).flatten.take n)
  else .ok (sample cards n)

/-- Increment the error count of the card stored under `t`
(src/flashcards.py:181; the mutation is on the stored card object). -/
def bumpError (t : Str) (fc : List (Str × Flashcard)) : List (Str × Flashcard) :=
  fc.map fun p => if p.1 = t then (p.1, { p.2 with error_count := p.2.error_count + 1 }) else p

/-- One question of the quiz loop (src/flashcards.py:169-181): the guess is
compared case-insensitively with the card's definition; on a wrong guess the
secondary mapping may name another term, and the card's error count is
incremented. Cards are presented by term (each stored card is keyed by its
term). -/
def quizStep (s : CardStore) (t guess : Str) : CardStore × Option QuizResult :=
  match alookup t s.flashcards with
  | none => (s, none)
  | some card =>
    if pyLower guess = pyLower card.definition then (s, some .correct)
    else
      match alookup guess s.definitions with
      | some other =>
        (⟨bumpError t s.flashcards, s.definitions⟩, some (.wrongOther card.definition other))
      | none => (⟨bumpError t s.flashcards, s.definitions⟩, some (.wrong card.definition))

/-- The question loop of `ask`, over presented terms with their guesses. -/
def quizRun : CardStore → List (Str × Str) → CardStore × List QuizResult
  | s, [] => (s, [])
  | s, (t, g) :: rest =>
    let step := quizStep s t g
    let next := quizRun step.1 rest
    (next.1, match step.2 with | some r => r :: next.2 | none => next.2)

/-- The maximum error count: `max(errors) if errors else 0`
(src/flashcards.py:200-201). -/
def maxErrorOf (s : CardStore) : Int :=
  match s.flashcards.map fun p => p.2.error_count with
  | [] => 0
  | e :: es => es.foldl max e

/-- `hardest_card` (src/flashcards.py:197-215): empty when the maximum
error count is zero, otherwise the terms attaining it, in iteration order. -/
def hardest_card (s : CardStore) : List Str :=
  if maxErrorOf s = 0 then []
  else s.flashcards.foldl
    (fun acc p => if p.2.error_count = maxErrorOf s then acc ++ [p.2.term] else acc) []

/-- `reset_stats` (src/flashcards.py:218-223). -/
def reset_stats (s : CardStore) : CardStore :=
  ⟨s.flashcards.map fun p => (p.1, { p.2 with error_count := 0 }), s.definitions⟩

/-- One public operation, for stating store invariants over operation
sequences. -/
inductive Op
  | addOp (t d : Str)
  | removeOp (t : Str)
  | quizOp (t guess : Str)
  | resetOp
  | importOp (file : Option (List Str))
  deriving DecidableEq, Repr

/-- The store after one operation, whatever the outcome (failed operations
keep the store they report, including the partial store of an import that
crashes mid-file). -/
def applyOp (s : CardStore) : Op → CardStore
  | .addOp t d => match add s t d with | .ok s' => s' | .error _ => s
  | .removeOp t =>
    match remove s t with
    | .notFound s' => s' | .removed s' => s' | .keyError s' => s'
  | .quizOp t g => (quizStep s t g).1
  | .resetOp => reset_stats s
  | .importOp f =>
    match import_file f s with
    | .fileNotFound s' => s' | .crashed s' => s' | .ok s' _ => s'

/-- The store reached by a sequence of operations from the empty store. -/
def runOps (ops : List Op) : CardStore := ops.foldl applyOp emptyStore

/-- Is the operation an import? -/
def Op.isImportOp : Op → Bool
  | .importOp _ => true
  | _ => false

/-- Uniqueness of terms: the primary mapping's keys are distinct. -/
def termUnique (s : CardStore) : Prop := (s.flashcards.map (·.1)).Nodup

/-- Uniqueness of definitions across all cards. -/
def defUnique (s : CardStore) : Prop := (s.flashcards.map (·.2.definition)).Nodup

/-- Well-formedness maintained by the interactive operations: distinct
terms, each card keyed by its own term, distinct definitions, and the
secondary mapping exactly mirroring the cards. -/
def Inv (s : CardStore) : Prop :=
  termUnique s ∧ (∀ p ∈ s.flashcards, p.2.term = p.1) ∧ defUnique s ∧
    s.definitions = (s.flashcards.map fun p => (p.2.definition, p.2.term))

instance (s : CardStore) : Decidable (termUnique s) :=
  inferInstanceAs (Decidable (s.flashcards.map fun p : Str × Flashcard => p.1).Nodup)

instance (s : CardStore) : Decidable (defUnique s) :=
  inferInstanceAs
    (Decidable (s.flashcards.map fun p : Str × Flashcard => p.2.definition).Nodup)

instance (s : CardStore) : Decidable (Inv s) :=
  inferInstanceAs (Decidable (termUnique s ∧ (∀ p ∈ s.flashcards, p.2.term = p.1) ∧
    defUnique s ∧ s.definitions = (s.flashcards.map fun p => (p.2.definition, p.2.term))))

end Flashcards

namespace Flashcards

theorem alookup_cons {α : Type} (k k' : Str) (v : α) (rest : List (Str × α)) :
    alookup k ((k', v) :: rest) = if k' = k then some v else alookup k rest := rfl

theorem dinsert_cons {α : Type} (k k' : Str) (v v' : α) (rest : List (Str × α)) :
    dinsert k v ((k', v') :: rest)
      = if k' = k then (k, v) :: rest else (k', v') :: dinsert k v rest := rfl

theorem derase_cons {α : Type} (k k' : Str) (v' : α) (rest : List (Str × α)) :
    derase k ((k', v') :: rest) = if k' = k then rest else (k', v') :: derase k rest := rfl

theorem bumpError_cons (t k : Str) (c : Flashcard) (rest : List (Str × Flashcard)) :
    bumpError t ((k, c) :: rest)
      = (if k = t then (k, { c with error_count := c.error_count + 1 }) else (k, c))
          :: bumpError t rest := rfl

theorem alookup_eq_none {α : Type} (k : Str) (m : List (Str × α)) :
    alookup k m = none ↔ k ∉ m.map (·.1) := by
  induction m with
  | nil => simp [alookup]
  | cons p rest ih =>
    obtain ⟨k', v⟩ := p
    by_cases hk : k' = k
    · subst hk
      rw [alookup_cons, if_pos rfl]
      constructor
      · intro h
        exact Option.noConfusion h
      · intro h
        rw [List.map_cons] at h
        exact absurd (List.mem_cons_self _ _) h
    · rw [alookup_cons, if_neg hk]
      simp only [List.map_cons, List.mem_cons, ih]
      constructor
      · rintro h1 (h2 | h2)
        · exact hk h2.symm
        · exact h1 h2
      · intro h1 h2
        exact h1 (Or.inr h2)

theorem alookup_mem {α : Type} (k : Str) (m : List (Str × α)) (v : α)
    (h : alookup k m = some v) : (k, v) ∈ m := by
  induction m with
  | nil => exact Option.noConfusion h
  | cons p rest ih =>
    obtain ⟨k', v'⟩ := p
    by_cases hk : k' = k
    · subst hk
      rw [alookup_cons, if_pos rfl] at h
      injection h with h
      subst h
      exact List.mem_cons_self _ _
    · rw [alookup_cons, if_neg hk] at h
      exact List.mem_cons_of_mem _ (ih h)

theorem mem_alookup {α : Type} (k : Str) (m : List (Str × α)) (v : α)
    (hn : (m.map (·.1)).Nodup) (h : (k, v) ∈ m) : alookup k m = some v := by
  induction m with
  | nil => simp at h
  | cons p rest ih =>
    obtain ⟨k', v'⟩ := p
    simp only [List.map_cons, List.nodup_cons] at hn
    rcases List.mem_cons.mp h with h1 | h1
    · injection h1 with h1 h2
      subst h1; subst h2
      rw [alookup_cons, if_pos rfl]
    · have hk : k' ≠ k := by
        intro hkk
        subst hkk
        exact hn.1 (List.mem_map.mpr ⟨(k', v), h1, rfl⟩)
      rw [alookup_cons, if_neg hk]
      exact ih hn.2 h1

theorem dinsert_fresh {α : Type} (k : Str) (v : α) (m : List (Str × α))
    (h : alookup k m = none) : dinsert k v m = m ++ [(k, v)] := by
  induction m with
  | nil => rfl
  | cons p rest ih =>
    obtain ⟨k', v'⟩ := p
    by_cases hk : k' = k
    · subst hk
      rw [alookup_cons, if_pos rfl] at h
      exact Option.noConfusion h
    · rw [alookup_cons, if_neg hk] at h
      rw [dinsert_cons, if_neg hk, ih h]
      rfl

theorem mem_keys_dinsert {α : Type} (a k : Str) (v : α) (m : List (Str × α)) :
    a ∈ (dinsert k v m).map (·.1) ↔ a ∈ m.map (·.1) ∨ a = k := by
  induction m with
  | nil => simp [dinsert]
  | cons p rest ih =>
    obtain ⟨k', v'⟩ := p
    by_cases hk : k' = k
    · subst hk
      rw [dinsert_cons, if_pos rfl]
      simp only [List.map_cons, List.mem_cons]
      tauto
    · rw [dinsert_cons, if_neg hk]
      simp only [List.map_cons, List.mem_cons, ih]
      tauto

theorem nodup_keys_dinsert {α : Type} (k : Str) (v : α) (m : List (Str × α))
    (h : (m.map (·.1)).Nodup) : ((dinsert k v m).map (·.1)).Nodup := by
  induction m with
  | nil => simp [dinsert]
  | cons p rest ih =>
    obtain ⟨k', v'⟩ := p
    simp only [List.map_cons, List.nodup_cons] at h
    by_cases hk : k' = k
    · subst hk
      rw [dinsert_cons, if_pos rfl]
      simp only [List.map_cons, List.nodup_cons]
      exact h
    · rw [dinsert_cons, if_neg hk]
      simp only [List.map_cons, List.nodup_cons]
      refine ⟨?_, ih h.2⟩
      intro hmem
      rcases (mem_keys_dinsert k' k v rest).mp hmem with h1 | h1
      · exact h.1 h1
      · exact hk h1

theorem keys_derase_sublist {α : Type} (k : Str) (m : List (Str × α)) :
    ((derase k m).map (·.1)).Sublist (m.map (·.1)) := by
  induction m with
  | nil => simp [derase]
  | cons p rest ih =>
    obtain ⟨k', v'⟩ := p
    by_cases hk : k' = k
    · subst hk
      rw [derase_cons, if_pos rfl]
      exact List.sublist_cons_self _ _
    · rw [derase_cons, if_neg hk]
      exact List.Sublist.cons₂ _ ih

theorem alookup_derase_self {α : Type} (k : Str) (m : List (Str × α))
    (h : (m.map (·.1)).Nodup) : alookup k (derase k m) = none := by
  rw [alookup_eq_none]
  induction m with
  | nil => simp [derase]
  | cons p rest ih =>
    obtain ⟨k', v'⟩ := p
    simp only [List.map_cons, List.nodup_cons] at h
    by_cases hk : k' = k
    · subst hk
      rw [derase_cons, if_pos rfl]
      exact h.1
    · rw [derase_cons, if_neg hk]
      simp only [List.map_cons, List.mem_cons]
      rintro (h1 | h1)
      · exact hk h1.symm
      · exact ih h.2 h1

theorem alookup_derase_ne {α : Type} (k k' : Str) (m : List (Str × α)) (h : k' ≠ k) :
    alookup k' (derase k m) = alookup k' m := by
  induction m with
  | nil => rfl
  | cons p rest ih =>
    obtain ⟨k'', v''⟩ := p
    by_cases hk : k'' = k
    · subst hk
      rw [derase_cons, if_pos rfl, alookup_cons, if_neg (fun hh => h hh.symm)]
    · rw [derase_cons, if_neg hk]
      by_cases hk2 : k'' = k'
      · subst hk2
        rw [alookup_cons, if_pos rfl, alookup_cons, if_pos rfl]
      · rw [alookup_cons, if_neg hk2, alookup_cons, if_neg hk2]
        exact ih

theorem bumpError_keys (t : Str) (fc : List (Str × Flashcard)) :
    (bumpError t fc).map (·.1) = fc.map (·.1) := by
  induction fc with
  | nil => rfl
  | cons p rest ih =>
    obtain ⟨k, c⟩ := p
    rw [bumpError_cons]
    by_cases hk : k = t
    · rw [if_pos hk]
      simp only [List.map_cons, ih]
    · rw [if_neg hk]
      simp only [List.map_cons, ih]

theorem bumpError_termdef (t : Str) (fc : List (Str × Flashcard)) :
    ((bumpError t fc).map fun p => (p.2.definition, p.2.term))
      = (fc.map fun p => (p.2.definition, p.2.term)) := by
  induction fc with
  | nil => rfl
  | cons p rest ih =>
    obtain ⟨k, c⟩ := p
    rw [bumpError_cons]
    by_cases hk : k = t
    · rw [if_pos hk]
      simp only [List.map_cons, ih]
    · rw [if_neg hk]
      simp only [List.map_cons, ih]

theorem bumpError_termkey (t : Str) (fc : List (Str × Flashcard))
    (h : ∀ p ∈ fc, p.2.term = p.1) : ∀ p ∈ bumpError t fc, p.2.term = p.1 := by
  intro p hp
  rcases List.mem_map.mp hp with ⟨q, hq, hpq⟩
  by_cases hqt : q.1 = t
  · rw [if_pos hqt] at hpq
    subst hpq
    exact h q hq
  · rw [if_neg hqt] at hpq
    subst hpq
    exact h q hq

theorem alookup_bumpError_self (t : Str) (fc : List (Str × Flashcard)) (card : Flashcard)
    (h : alookup t fc = some card) :
    alookup t (bumpError t fc)
      = some { card with error_count := card.error_count + 1 } := by
  induction fc with
  | nil => exact Option.noConfusion h
  | cons p rest ih =>
    obtain ⟨k, c⟩ := p
    rw [bumpError_cons]
    by_cases hk : k = t
    · rw [if_pos hk]
      subst hk
      rw [alookup_cons, if_pos rfl] at h
      injection h with h
      subst h
      rw [alookup_cons, if_pos rfl]
    · rw [if_neg hk]
      rw [alookup_cons, if_neg hk] at h
      rw [alookup_cons, if_neg hk]
      exact ih h

theorem alookup_bumpError_ne (t t' : Str) (fc : List (Str × Flashcard)) (h : t' ≠ t) :
    alookup t' (bumpError t fc) = alookup t' fc := by
  induction fc with
  | nil => rfl
  | cons p rest ih =>
    obtain ⟨k, c⟩ := p
    rw [bumpError_cons]
    by_cases hk : k = t
    · rw [if_pos hk]
      have hk2 : ¬ k = t' := by
        intro hh
        rw [← hh] at h
        exact h hk
      rw [alookup_cons, if_neg hk2, alookup_cons, if_neg hk2]
      exact ih
    · rw [if_neg hk]
      by_cases hk2 : k = t'
      · subst hk2
        rw [alookup_cons, if_pos rfl, alookup_cons, if_pos rfl]
      · rw [alookup_cons, if_neg hk2, alookup_cons, if_neg hk2]
        exact ih

theorem foldl_max_le (es : List Int) (a : Int) : a ≤ es.foldl max a := by
  induction es generalizing a with
  | nil => exact le_refl a
  | cons e es ih => exact le_trans (le_max_left a e) (ih (max a e))

theorem mem_le_foldl_max (es : List Int) (a e : Int) (h : e ∈ es) : e ≤ es.foldl max a := by
  induction es generalizing a with
  | nil => simp at h
  | cons e' es ih =>
    rcases List.mem_cons.mp h with h1 | h1
    · subst h1
      exact le_trans (le_max_right a e) (foldl_max_le es (max a e))
    · exact ih _ h1

theorem foldl_max_cases (es : List Int) (a : Int) :
    es.foldl max a = a ∨ es.foldl max a ∈ es := by
  induction es generalizing a with
  | nil => exact Or.inl rfl
  | cons e' es ih =>
    rcases ih (max a e') with h1 | h1
    · rcases max_choice a e' with h2 | h2
      · exact Or.inl (by rw [List.foldl_cons, h1, h2])
      · exact Or.inr (by rw [List.foldl_cons, h1, h2]; exact List.mem_cons_self _ _)
    · exact Or.inr (List.mem_cons_of_mem _ h1)

theorem hardest_foldl_eq_filter (fc : List (Str × Flashcard)) (m : Int) (acc : List Str) :
    fc.foldl (fun acc p => if p.2.error_count = m then acc ++ [p.2.term] else acc) acc
      = acc ++ ((fc.filter fun p => p.2.error_count == m).map fun p => p.2.term) := by
  induction fc generalizing acc with
  | nil => simp
  | cons p rest ih =>
    by_cases hp : p.2.error_count = m
    · rw [List.foldl_cons, if_pos hp, ih]
      simp [List.filter_cons, hp]
    · rw [List.foldl_cons, if_neg hp, ih]
      simp [List.filter_cons, hp]

end Flashcards

namespace Flashcards

/-- The store carried by an import outcome. -/
def ImportResult.store : ImportResult → CardStore
  | .fileNotFound s => s
  | .crashed s => s
  | .ok s _ => s

/-- The number of records an import outcome loaded. -/
def ImportResult.count : ImportResult → Nat
  | .ok _ n => n
  | _ => 0

/-- A deterministic stand-in for `random.sample`, used to instantiate
theorems that hold for every sampling function. -/
def takeSample (cards : List Flashcard) (n : Nat) : List Flashcard := cards.take n

/-- C9: for every source path that does not exist, `import_file` reports the
file as not found (a non-fatal, reported outcome), imports zero records, and
leaves both mappings of the store unchanged. -/
theorem import_missing_source (s : CardStore) :
    import_file none s = .fileNotFound s ∧ (import_file none s).store = s ∧
      (import_file none s).count = 0 :=
  ⟨rfl, rfl, rfl⟩

/-- C2: contrary to the claim, a quiz on an empty store with `n > 0` is not
a guarded, recoverable error: the replication-count formula divides by zero,
and the resulting `ZeroDivisionError` is caught nowhere (the interactive
loop catches only `KeyError`), so the process terminates. -/
theorem ask_empty_store_crashes (sample : List Flashcard → Nat → List Flashcard)
    (n : Nat) (h : 0 < n) :
    askSelection sample emptyStore n = .error .zeroDivisionError := by
  simp [askSelection, emptyStore, h]

theorem ask_empty_store_crashes_witness :
    0 < 1 ∧ askSelection takeSample emptyStore 1 = .error .zeroDivisionError :=
  ⟨by decide, ask_empty_store_crashes takeSample 1 (by decide)⟩

theorem foldl_max_all_zero (es : List Int) (a : Int) (ha : a = 0)
    (h : ∀ e ∈ es, e = 0) : es.foldl max a = 0 := by
  induction es generalizing a with
  | nil => exact ha
  | cons e es ih =>
    rw [List.foldl_cons]
    refine ih (max a e) ?_ fun e' he' => h e' (List.mem_cons_of_mem _ he')
    rw [ha, h e (List.mem_cons_self _ _), max_self]

theorem maxErrorOf_reset (s : CardStore) : maxErrorOf (reset_stats s) = 0 := by
  unfold maxErrorOf reset_stats
  simp only [List.map_map]
  cases s.flashcards with
  | nil => rfl
  | cons p rest =>
    simp only [List.map_cons]
    refine foldl_max_all_zero _ _ rfl ?_
    intro e he
    rcases List.mem_map.mp he with ⟨q, _, hq⟩
    rw [← hq]
    rfl

/-- C7: `reset_stats` sets every card's error count to 0 (with no failure
modes), so on a non-empty store `hardest_card` afterwards returns the empty
sequence. -/
theorem reset_then_hardest_empty (s : CardStore) (h : s.flashcards ≠ []) :
    (∀ p ∈ (reset_stats s).flashcards, p.2.error_count = 0) ∧
      hardest_card (reset_stats s) = [] := by
  constructor
  · intro p hp
    rcases List.mem_map.mp hp with ⟨q, _, hpq⟩
    rw [← hpq]
  · unfold hardest_card
    rw [maxErrorOf_reset, if_pos rfl]

theorem reset_then_hardest_empty_witness :
    (∀ p ∈ (reset_stats ⟨[(['a'], ⟨['a'], ['d'], 3⟩)], [(['d'], ['a'])]⟩).flashcards,
        p.2.error_count = 0) ∧
      hardest_card (reset_stats ⟨[(['a'], ⟨['a'], ['d'], 3⟩)], [(['d'], ['a'])]⟩) = [] :=
  reset_then_hardest_empty ⟨[(['a'], ⟨['a'], ['d'], 3⟩)], [(['d'], ['a'])]⟩ (by decide)

/-- C8: `hardest_card` computes the maximum error count over all cards (0
for an empty store); it returns the empty sequence when that maximum is 0,
and otherwise exactly the terms of the cards attaining it, in iteration
order. -/
theorem hardest_card_spec (s : CardStore) :
    (s.flashcards = [] → maxErrorOf s = 0) ∧
    (∀ p ∈ s.flashcards, p.2.error_count ≤ maxErrorOf s) ∧
    (s.flashcards ≠ [] → ∃ p ∈ s.flashcards, p.2.error_count = maxErrorOf s) ∧
    (maxErrorOf s = 0 → hardest_card s = []) ∧
    (maxErrorOf s ≠ 0 → hardest_card s
        = ((s.flashcards.filter fun p => p.2.error_count == maxErrorOf s).map
            fun p => p.2.term)) := by
  refine ⟨?_, ?_, ?_, ?_, ?_⟩
  · intro h
    unfold maxErrorOf
    rw [h]
    rfl
  · intro p hp
    unfold maxErrorOf
    cases hfc : s.flashcards.map fun p => p.2.error_count with
    | nil =>
      rw [List.map_eq_nil_iff] at hfc
      rw [hfc] at hp
      simp at hp
    | cons e es =>
      have hmem : p.2.error_count ∈ e :: es := by
        rw [← hfc]
        exact List.mem_map.mpr ⟨p, hp, rfl⟩
      rcases List.mem_cons.mp hmem with h1 | h1
      · rw [h1]
        exact foldl_max_le es e
      · exact mem_le_foldl_max es e _ h1
  · intro h
    unfold maxErrorOf
    cases hfc : s.flashcards.map fun p => p.2.error_count with
    | nil =>
      rw [List.map_eq_nil_iff] at hfc
      exact absurd hfc h
    | cons e es =>
      have : es.foldl max e ∈ e :: es := by
        rcases foldl_max_cases es e with h1 | h1
        · rw [h1]
          exact List.mem_cons_self _ _
        · exact List.mem_cons_of_mem _ h1
      rw [← hfc] at this
      rcases List.mem_map.mp this with ⟨p, hp, hpe⟩
      exact ⟨p, hp, hpe⟩
  · intro h
    unfold hardest_card
    rw [if_pos h]
  · intro h
    unfold hardest_card
    rw [if_neg h, hardest_foldl_eq_filter]
    rfl

theorem hardest_card_spec_witness :
    ∃ p ∈ ([(['a'], (⟨['a'], ['d'], 2⟩ : Flashcard)), (['b'], ⟨['b'], ['e'], 2⟩)] :
        List (Str × Flashcard)),
      p.2.error_count = maxErrorOf ⟨[(['a'], ⟨['a'], ['d'], 2⟩), (['b'], ⟨['b'], ['e'], 2⟩)],
        [(['d'], ['a']), (['e'], ['b'])]⟩ :=
  (hardest_card_spec ⟨[(['a'], ⟨['a'], ['d'], 2⟩), (['b'], ⟨['b'], ['e'], 2⟩)],
    [(['d'], ['a']), (['e'], ['b'])]⟩).2.2.1 (by decide)

end Flashcards

namespace Flashcards

theorem length_flatten_replicate {α : Type} (k : Nat) (l : List α) :
    (List.replicate k l).flatten.length = k * l.length := by
  induction k with
  | zero => simp
  | succ k ih =>
    rw [List.replicate_succ, List.flatten_cons, List.length_append, ih]
    rw [Nat.succ_mul]
    omega

theorem flatten_replicate_getElem? {α : Type} (k : Nat) (l : List α) (i : Nat)
    (hi : i < k * l.length) :
    (List.replicate k l).flatten[i]? = l[i % l.length]? := by
  induction k generalizing i with
  | zero => simp at hi
  | succ k ih =>
    rw [List.replicate_succ, List.flatten_cons]
    by_cases hil : i < l.length
    · rw [List.getElem?_append, if_pos hil, Nat.mod_eq_of_lt hil]
    · have hge : l.length ≤ i := le_of_not_lt hil
      rw [List.getElem?_append, if_neg hil]
      rw [ih (i - l.length) (by rw [Nat.succ_mul] at hi; omega)]
      rw [Nat.mod_eq_sub_mod hge]

theorem le_div_succ_mul (n len : Nat) (hpos : 0 < len) : n ≤ (n / len + 1) * len := by
  have h1 := Nat.div_add_mod n len
  have h2 := Nat.mod_lt n hpos
  calc n = len * (n / len) + n % len := h1.symm
    _ ≤ len * (n / len) + len := by omega
    _ = (n / len + 1) * len := by ring

/-- C5: when `n` exceeds the (positive) card count, the quiz presents
exactly `n` cards, deterministically: whole passes over the card list in
its current iteration order truncated to `n` (position `i` holds card
`i mod count`), so every card appears at least once. -/
theorem ask_selection_repeats (sample : List Flashcard → Nat → List Flashcard)
    (s : CardStore) (n : Nat) (h0 : s.flashcards ≠ [])
    (hn : s.flashcards.length < n) :
    ∃ sel, askSelection sample s n = .ok sel ∧ sel.length = n ∧
      (∀ i, i < n → sel[i]? = (s.flashcards.map (·.2))[i % s.flashcards.length]?) ∧
      (∀ c ∈ s.flashcards.map (·.2), c ∈ sel) := by
  have hlen : (s.flashcards.map (·.2)).length = s.flashcards.length := List.length_map _ _
  have hpos : 0 < s.flashcards.length := List.length_pos.mpr h0
  have hne0 : ¬ ((s.flashcards.map (·.2)).length = 0) := by rw [hlen]; omega
  have hlt : (s.flashcards.map (·.2)).length < n := by rw [hlen]; exact hn
  have hkn : n ≤ (n / (s.flashcards.map (·.2)).length + 1) * (s.flashcards.map (·.2)).length := by
    rw [hlen]
    exact le_div_succ_mul n s.flashcards.length hpos
  refine ⟨(List.replicate (n / (s.flashcards.map (·.2)).length + 1)
      (s.flashcards.map (·.2))).flatten.take n, ?_, ?_, ?_, ?_⟩
  · unfold askSelection
    rw [if_pos hlt, if_neg hne0]
  · rw [List.length_take, length_flatten_replicate]
    exact Nat.min_eq_left hkn
  · intro i hi
    rw [List.getElem?_take, if_pos hi,
      flatten_replicate_getElem? _ _ i (lt_of_lt_of_le hi hkn), hlen]
  · intro c hcm
    rcases List.mem_iff_getElem.mp hcm with ⟨j, hj, hg⟩
    have hjfc : j < s.flashcards.length := by rw [hlen] at hj; exact hj
    have hjn : j < n := lt_trans hjfc hn
    have hsel : ((List.replicate (n / (s.flashcards.map (·.2)).length + 1)
        (s.flashcards.map (·.2))).flatten.take n)[j]? = some c := by
      rw [List.getElem?_take, if_pos hjn,
        flatten_replicate_getElem? _ _ j (lt_of_lt_of_le hjn hkn), hlen,
        Nat.mod_eq_of_lt hjfc, List.getElem?_eq_getElem hj, hg]
    rcases List.getElem?_eq_some_iff.mp hsel with ⟨hlt2, hget⟩
    exact hget ▸ List.getElem_mem hlt2

/-- C6: `remove` on an absent term reports that there is no such card and
leaves both mappings unchanged; on a present term it deletes the term from
the primary mapping and the card's definition from the secondary mapping,
after which removing the same term again reports not-found on the unchanged
store. -/
theorem remove_spec (s : CardStore) (t : Str) (hInv : Inv s) :
    (alookup t s.flashcards = none → remove s t = .notFound s) ∧
    (∀ card, alookup t s.flashcards = some card →
      remove s t
          = .removed ⟨derase t s.flashcards, derase card.definition s.definitions⟩ ∧
        remove (⟨derase t s.flashcards, derase card.definition s.definitions⟩ : CardStore) t
          = .notFound ⟨derase t s.flashcards, derase card.definition s.definitions⟩) := by
  obtain ⟨hTU, hTK, hDU, hDefs⟩ := hInv
  constructor
  · intro h
    unfold remove
    rw [h]
  · intro card h
    have hmem : (t, card) ∈ s.flashcards := alookup_mem t _ card h
    have hdefmem : (card.definition, card.term) ∈ s.definitions := by
      rw [hDefs]
      exact List.mem_map.mpr ⟨(t, card), hmem, rfl⟩
    have hdefkeys : (s.definitions.map (·.1)).Nodup := by
      rw [hDefs, List.map_map]
      exact hDU
    have hlook : alookup card.definition s.definitions = some card.term :=
      mem_alookup _ _ _ hdefkeys hdefmem
    constructor
    · simp only [remove, h, hlook]
    · simp only [remove]
      rw [alookup_derase_self t _ hTU]

theorem bumpError_triple (t : Str) (fc : List (Str × Flashcard)) :
    ((bumpError t fc).map fun p => (p.1, p.2.term, p.2.definition))
      = fc.map fun p => (p.1, p.2.term, p.2.definition) := by
  induction fc with
  | nil => rfl
  | cons p rest ih =>
    obtain ⟨k, c⟩ := p
    rw [bumpError_cons]
    by_cases hk : k = t
    · rw [if_pos hk]
      simp only [List.map_cons, ih]
    · rw [if_neg hk]
      simp only [List.map_cons, ih]

theorem quizStep_frame (s : CardStore) (t g : Str) :
    (quizStep s t g).1.definitions = s.definitions ∧
    ((quizStep s t g).1.flashcards.map (fun p => (p.1, p.2.term, p.2.definition))
        = s.flashcards.map fun p => (p.1, p.2.term, p.2.definition)) ∧
    (∀ t', t' ≠ t → alookup t' (quizStep s t g).1.flashcards
        = alookup t' s.flashcards) := by
  cases hl : alookup t s.flashcards with
  | none =>
    have hstep : quizStep s t g = (s, none) := by
      simp only [quizStep, hl]
    rw [hstep]
    exact ⟨rfl, rfl, fun _ _ => rfl⟩
  | some card =>
    by_cases hg : pyLower g = pyLower card.definition
    · have hstep : quizStep s t g = (s, some QuizResult.correct) := by
        simp only [quizStep, hl]
        rw [if_pos hg]
      rw [hstep]
      exact ⟨rfl, rfl, fun _ _ => rfl⟩
    · cases hd : alookup g s.definitions with
      | none =>
        have hstep : quizStep s t g
            = (⟨bumpError t s.flashcards, s.definitions⟩,
                some (QuizResult.wrong card.definition)) := by
          simp only [quizStep, hl, hd]
          rw [if_neg hg]
        rw [hstep]
        exact ⟨rfl, bumpError_triple t _, fun t' ht' => alookup_bumpError_ne t t' _ ht'⟩
      | some other =>
        have hstep : quizStep s t g
            = (⟨bumpError t s.flashcards, s.definitions⟩,
                some (QuizResult.wrongOther card.definition other)) := by
          simp only [quizStep, hl, hd]
          rw [if_neg hg]
        rw [hstep]
        exact ⟨rfl, bumpError_triple t _, fun t' ht' => alookup_bumpError_ne t t' _ ht'⟩

/-- C10: the quiz loop never adds or removes flashcards, never changes any
card's term or definition, and never touches the definition-to-term mapping;
only the error counts of the presented cards can change. -/
theorem quiz_frame (s : CardStore) (ps : List (Str × Str)) :
    ((quizRun s ps).1.definitions = s.definitions) ∧
    ((quizRun s ps).1.flashcards.map (fun p => (p.1, p.2.term, p.2.definition))
        = s.flashcards.map fun p => (p.1, p.2.term, p.2.definition)) ∧
    (∀ t, t ∉ ps.map (·.1) → alookup t (quizRun s ps).1.flashcards
        = alookup t s.flashcards) := by
  induction ps generalizing s with
  | nil => exact ⟨rfl, rfl, fun _ _ => rfl⟩
  | cons p rest ih =>
    obtain ⟨t, g⟩ := p
    have hrun : (quizRun s ((t, g) :: rest)).1 = (quizRun (quizStep s t g).1 rest).1 := rfl
    obtain ⟨ha, hb, hc⟩ := quizStep_frame s t g
    obtain ⟨ia, ib, ic⟩ := ih (quizStep s t g).1
    refine ⟨?_, ?_, ?_⟩
    · rw [hrun, ia, ha]
    · rw [hrun, ib, hb]
    · intro t' ht'
      simp only [List.map_cons, List.mem_cons] at ht'
      push_neg at ht'
      rw [hrun, ic t' ht'.2, hc t' ht'.1]

/-- The cards of a store, in iteration order. -/
def cardsOf (s : CardStore) : List Flashcard := s.flashcards.map (·.2)

/-- C3: for a presented card and guess, a case-insensitive match with the
card's definition yields `Correct` and changes nothing; otherwise the
card's error count rises by exactly one, and the result names the other
term whose definition the guess equals exactly, or is plain `Wrong` when
the guess equals no card's definition. -/
theorem quiz_guess_outcomes (s : CardStore) (hInv : Inv s) (t : Str) (card : Flashcard)
    (guess : Str) (hc : alookup t s.flashcards = some card) :
    (pyLower guess = pyLower card.definition →
        quizStep s t guess = (s, some QuizResult.correct)) ∧
    (pyLower guess ≠ pyLower card.definition →
      alookup t (quizStep s t guess).1.flashcards
          = some { card with error_count := card.error_count + 1 } ∧
      (∀ c ∈ cardsOf s, c.definition = guess →
        c.term ≠ t ∧
          (quizStep s t guess).2 = some (QuizResult.wrongOther card.definition c.term)) ∧
      ((∀ c ∈ cardsOf s, c.definition ≠ guess) →
        (quizStep s t guess).2 = some (QuizResult.wrong card.definition))) := by
  obtain ⟨hTU, hTK, hDU, hDefs⟩ := hInv
  constructor
  · intro hg
    simp only [quizStep, hc]
    rw [if_pos hg]
  · intro hg
    refine ⟨?_, ?_, ?_⟩
    · simp only [quizStep, hc]
      rw [if_neg hg]
      cases alookup guess s.definitions with
      | none => exact alookup_bumpError_self t _ card hc
      | some other => exact alookup_bumpError_self t _ card hc
    · intro c hcm hcd
      rcases List.mem_map.mp hcm with ⟨p, hp, hpc⟩
      have hdefmem : (c.definition, c.term) ∈ s.definitions := by
        rw [hDefs]
        exact List.mem_map.mpr ⟨p, hp, by rw [hpc]⟩
      have hdefkeys : (s.definitions.map (·.1)).Nodup := by
        rw [hDefs, List.map_map]
        exact hDU
      have hlook : alookup guess s.definitions = some c.term := by
        rw [← hcd]
        exact mem_alookup _ _ _ hdefkeys hdefmem
      have hne : c.term ≠ t := by
        intro hct
        have hp1 : p.1 = t := by rw [← hTK p hp, hpc, hct]
        have hpmem : (t, c) ∈ s.flashcards := by
          have hpe : p = (t, c) := Prod.ext hp1 hpc
          rw [← hpe]
          exact hp
        have hlc := mem_alookup t _ c hTU hpmem
        rw [hc] at hlc
        injection hlc with heq
        apply hg
        rw [heq, hcd]
      refine ⟨hne, ?_⟩
      simp only [quizStep, hc]
      rw [if_neg hg, hlook]
    · intro hnone
      have hlook : alookup guess s.definitions = none := by
        rw [alookup_eq_none, hDefs, List.map_map]
        intro hmem
        rcases List.mem_map.mp hmem with ⟨p, hp, hpg⟩
        exact hnone p.2 (List.mem_map.mpr ⟨p, hp, rfl⟩) hpg
      simp only [quizStep, hc]
      rw [if_neg hg, hlook]

end Flashcards

namespace Flashcards

theorem derase_sublist {α : Type} (k : Str) (m : List (Str × α)) : (derase k m).Sublist m := by
  induction m with
  | nil => simp [derase]
  | cons p rest ih =>
    obtain ⟨k', v'⟩ := p
    by_cases hk : k' = k
    · subst hk
      rw [derase_cons, if_pos rfl]
      exact List.sublist_cons_self _ _
    · rw [derase_cons, if_neg hk]
      exact List.Sublist.cons₂ _ ih

theorem mem_derase {α : Type} (k : Str) (m : List (Str × α)) (p : Str × α)
    (h : p ∈ derase k m) : p ∈ m :=
  (derase_sublist k m).mem h

theorem quizStep_fc (s : CardStore) (t g : Str) :
    (quizStep s t g).1 = s ∨
      (quizStep s t g).1 = ⟨bumpError t s.flashcards, s.definitions⟩ := by
  cases hl : alookup t s.flashcards with
  | none =>
    left
    simp only [quizStep, hl]
  | some card =>
    by_cases hg : pyLower g = pyLower card.definition
    · left
      simp only [quizStep, hl]
      rw [if_pos hg]
    · cases hd : alookup g s.definitions with
      | none =>
        right
        simp only [quizStep, hl, hd]
        rw [if_neg hg]
      | some other =>
        right
        simp only [quizStep, hl, hd]
        rw [if_neg hg]

theorem termUnique_bump (s : CardStore) (t : Str) (h : termUnique s) :
    termUnique (⟨bumpError t s.flashcards, s.definitions⟩ : CardStore) := by
  unfold termUnique at h ⊢
  rw [bumpError_keys]
  exact h

theorem Inv_bump (s : CardStore) (t : Str) (h : Inv s) :
    Inv (⟨bumpError t s.flashcards, s.definitions⟩ : CardStore) := by
  obtain ⟨hTU, hTK, hDU, hDefs⟩ := h
  refine ⟨termUnique_bump s t hTU, bumpError_termkey t _ hTK, ?_, ?_⟩
  · unfold defUnique
    have h2 := congrArg (List.map (·.1)) (bumpError_termdef t s.flashcards)
    rw [List.map_map, List.map_map] at h2
    show ((bumpError t s.flashcards).map fun p => p.2.definition).Nodup
    rw [show ((bumpError t s.flashcards).map fun p => p.2.definition)
        = s.flashcards.map fun p => p.2.definition from h2]
    exact hDU
  · show s.definitions = _
    rw [bumpError_termdef]
    exact hDefs

theorem termUnique_importGo (lines : List Str) (s : CardStore) (n : Nat)
    (h : termUnique s) : termUnique (importGo lines s n).store := by
  induction lines generalizing s n with
  | nil => exact h
  | cons line rest ih =>
    show termUnique (match parseLine line with
      | some (t, d, ec) => importGo rest (storeRecord s t d ec) (n + 1)
      | none => ImportResult.crashed s).store
    cases parseLine line with
    | none => exact h
    | some td =>
      obtain ⟨t, d, ec⟩ := td
      exact ih (storeRecord s t d ec) (n + 1) (nodup_keys_dinsert t _ _ h)

theorem termUnique_applyOp (s : CardStore) (op : Op) (h : termUnique s) :
    termUnique (applyOp s op) := by
  cases op with
  | addOp t d =>
    show termUnique (match add s t d with | .ok s' => s' | .error _ => s)
    by_cases h1 : (alookup t s.flashcards).isSome
    · rw [show add s t d = .error .duplicateTerm by unfold add; rw [if_pos h1]]
      exact h
    · by_cases h2 : (alookup d s.definitions).isSome
      · rw [show add s t d = .error .duplicateDefinition by
          unfold add; rw [if_neg h1, if_pos h2]]
        exact h
      · rw [show add s t d
            = .ok ⟨dinsert t ⟨t, d, 0⟩ s.flashcards, dinsert d t s.definitions⟩ by
          unfold add; rw [if_neg h1, if_neg h2]]
        exact nodup_keys_dinsert t _ _ h
  | removeOp t =>
    show termUnique (match remove s t with
      | .notFound s' => s' | .removed s' => s' | .keyError s' => s')
    cases hl : alookup t s.flashcards with
    | none =>
      rw [show remove s t = .notFound s by simp only [remove, hl]]
      exact h
    | some card =>
      cases hd : alookup card.definition s.definitions with
      | none =>
        rw [show remove s t = .keyError ⟨derase t s.flashcards, s.definitions⟩ by
          simp only [remove, hl, hd]]
        exact ((keys_derase_sublist t s.flashcards).nodup h)
      | some other =>
        rw [show remove s t
            = .removed ⟨derase t s.flashcards, derase card.definition s.definitions⟩ by
          simp only [remove, hl, hd]]
        exact ((keys_derase_sublist t s.flashcards).nodup h)
  | quizOp t g =>
    show termUnique (quizStep s t g).1
    rcases quizStep_fc s t g with h1 | h1
    · rw [h1]; exact h
    · rw [h1]; exact termUnique_bump s t h
  | resetOp =>
    show termUnique (reset_stats s)
    unfold termUnique at h ⊢
    show (List.map (·.1) (s.flashcards.map fun p => (p.1, { p.2 with error_count := 0 }))).Nodup
    rw [List.map_map]
    exact h
  | importOp f =>
    cases f with
    | none => exact h
    | some lines =>
      show termUnique (importGo lines s 0).store
      exact termUnique_importGo lines s 0 h

theorem derase_map_termdef (fc : List (Str × Flashcard)) (t : Str) (card : Flashcard)
    (hTU : (fc.map (·.1)).Nodup) (hDU : (fc.map fun p => p.2.definition).Nodup)
    (hl : alookup t fc = some card) :
    derase card.definition (fc.map fun p => (p.2.definition, p.2.term))
      = (derase t fc).map fun p => (p.2.definition, p.2.term) := by
  induction fc with
  | nil => exact Option.noConfusion hl
  | cons p rest ih =>
    obtain ⟨k, c⟩ := p
    simp only [List.map_cons, List.nodup_cons] at hTU hDU
    by_cases hk : k = t
    · subst hk
      rw [alookup_cons, if_pos rfl] at hl
      injection hl with hl
      subst hl
      rw [List.map_cons, derase_cons, if_pos rfl, derase_cons, if_pos rfl]
    · rw [alookup_cons, if_neg hk] at hl
      have hcdef : c.definition ≠ card.definition := by
        intro hcd
        have hcm : (t, card) ∈ rest := alookup_mem t rest card hl
        have hin : card.definition ∈ rest.map fun p => p.2.definition :=
          List.mem_map.mpr ⟨(t, card), hcm, rfl⟩
        rw [← hcd] at hin
        exact hDU.1 hin
      rw [List.map_cons, derase_cons, if_neg hcdef, derase_cons, if_neg hk, List.map_cons,
        ih hTU.2 hDU.2 hl]

theorem Inv_applyOp (s : CardStore) (op : Op) (h : Inv s)
    (hni : op.isImportOp = false) : Inv (applyOp s op) := by
  obtain ⟨hTU, hTK, hDU, hDefs⟩ := h
  cases op with
  | addOp t d =>
    show Inv (match add s t d with | .ok s' => s' | .error _ => s)
    by_cases h1 : (alookup t s.flashcards).isSome
    · rw [show add s t d = .error .duplicateTerm by unfold add; rw [if_pos h1]]
      exact ⟨hTU, hTK, hDU, hDefs⟩
    · by_cases h2 : (alookup d s.definitions).isSome
      · rw [show add s t d = .error .duplicateDefinition by
          unfold add; rw [if_neg h1, if_pos h2]]
        exact ⟨hTU, hTK, hDU, hDefs⟩
      · rw [show add s t d
            = .ok ⟨dinsert t ⟨t, d, 0⟩ s.flashcards, dinsert d t s.definitions⟩ by
          unfold add; rw [if_neg h1, if_neg h2]]
        have hfr1 : alookup t s.flashcards = none := by
          cases hx : alookup t s.flashcards with
          | none => rfl
          | some v => rw [hx] at h1; exact absurd rfl h1
        have hfr2 : alookup d s.definitions = none := by
          cases hx : alookup d s.definitions with
          | none => rfl
          | some v => rw [hx] at h2; exact absurd rfl h2
        have hins1 : dinsert t (⟨t, d, 0⟩ : Flashcard) s.flashcards
            = s.flashcards ++ [(t, ⟨t, d, 0⟩)] := dinsert_fresh t _ _ hfr1
        have hins2 : dinsert d t s.definitions = s.definitions ++ [(d, t)] :=
          dinsert_fresh d t _ hfr2
        refine ⟨nodup_keys_dinsert t _ _ hTU, ?_, ?_, ?_⟩
        · show ∀ p ∈ dinsert t (⟨t, d, 0⟩ : Flashcard) s.flashcards, p.2.term = p.1
          rw [hins1]
          intro p hp
          rcases List.mem_append.mp hp with h3 | h3
          · exact hTK p h3
          · simp only [List.mem_singleton] at h3
            subst h3
            rfl
        · show ((dinsert t (⟨t, d, 0⟩ : Flashcard) s.flashcards).map
              fun p => p.2.definition).Nodup
          rw [hins1, List.map_append]
          rw [List.nodup_append]
          refine ⟨hDU, by simp, ?_⟩
          intro x hx
          simp only [List.map_cons, List.map_nil, List.mem_singleton]
          intro hxd
          have hkeys : x ∉ s.definitions.map (·.1) := by
            rw [hxd]
            exact (alookup_eq_none d _).mp hfr2
          rw [hDefs, List.map_map] at hkeys
          exact hkeys hx
        · show dinsert d t s.definitions = _
          rw [hins1, hins2, List.map_append, hDefs]
          rfl
  | removeOp t =>
    show Inv (match remove s t with
      | .notFound s' => s' | .removed s' => s' | .keyError s' => s')
    cases hl : alookup t s.flashcards with
    | none =>
      rw [show remove s t = .notFound s by simp only [remove, hl]]
      exact ⟨hTU, hTK, hDU, hDefs⟩
    | some card =>
      have hmem : (t, card) ∈ s.flashcards := alookup_mem t _ card hl
      have hdefmem : (card.definition, card.term) ∈ s.definitions := by
        rw [hDefs]
        exact List.mem_map.mpr ⟨(t, card), hmem, rfl⟩
      have hdefkeys : (s.definitions.map (·.1)).Nodup := by
        rw [hDefs, List.map_map]
        exact hDU
      have hlook : alookup card.definition s.definitions = some card.term :=
        mem_alookup _ _ _ hdefkeys hdefmem
      rw [show remove s t
          = .removed ⟨derase t s.flashcards, derase card.definition s.definitions⟩ by
        simp only [remove, hl, hlook]]
      refine ⟨(keys_derase_sublist t s.flashcards).nodup hTU,
        fun p hp => hTK p (mem_derase t _ p hp), ?_, ?_⟩
      · show ((derase t s.flashcards).map fun p => p.2.definition).Nodup
        exact ((derase_sublist t s.flashcards).map _).nodup hDU
      · show derase card.definition s.definitions = _
        rw [hDefs]
        exact derase_map_termdef s.flashcards t card hTU hDU hl
  | quizOp t g =>
    show Inv (quizStep s t g).1
    rcases quizStep_fc s t g with h1 | h1
    · rw [h1]
      exact ⟨hTU, hTK, hDU, hDefs⟩
    · rw [h1]
      exact Inv_bump s t ⟨hTU, hTK, hDU, hDefs⟩
  | resetOp =>
    show Inv (reset_stats s)
    refine ⟨?_, ?_, ?_, ?_⟩
    · show ((reset_stats s).flashcards.map (·.1)).Nodup
      unfold reset_stats
      rw [List.map_map]
      exact hTU
    · intro p hp
      rcases List.mem_map.mp hp with ⟨q, hq, hpq⟩
      subst hpq
      exact hTK q hq
    · show ((reset_stats s).flashcards.map fun p => p.2.definition).Nodup
      unfold reset_stats
      rw [List.map_map]
      exact hDU
    · show s.definitions = _
      unfold reset_stats
      rw [List.map_map]
      exact hDefs
  | importOp f => exact absurd hni (by simp [Op.isImportOp])

end Flashcards

namespace Flashcards

theorem Inv_emptyStore : Inv emptyStore := by decide

theorem termUnique_foldl (ops : List Op) (s : CardStore) (h : termUnique s) :
    termUnique (ops.foldl applyOp s) := by
  induction ops generalizing s with
  | nil => exact h
  | cons op rest ih => exact ih _ (termUnique_applyOp s op h)

theorem Inv_foldl (ops : List Op) (s : CardStore) (h : Inv s)
    (hni : ∀ op ∈ ops, op.isImportOp = false) : Inv (ops.foldl applyOp s) := by
  induction ops generalizing s with
  | nil => exact h
  | cons op rest ih =>
    exact ih _ (Inv_applyOp s op h (hni op (List.mem_cons_self _ _)))
      fun o ho => hni o (List.mem_cons_of_mem _ ho)

/-- C1 (amended): after any sequence of the public operations starting from
the empty store, every term is unique across all flashcards; and when the
sequence contains no import, every definition is unique as well (the import
operation itself can break definition uniqueness, see the counterexample). -/
theorem uniqueness_after_ops (ops : List Op) :
    termUnique (runOps ops) ∧
      ((∀ op ∈ ops, op.isImportOp = false) → defUnique (runOps ops)) := by
  constructor
  · exact termUnique_foldl ops emptyStore (by decide)
  · intro hni
    exact (Inv_foldl ops emptyStore Inv_emptyStore hni).2.2.1

theorem uniqueness_after_ops_witness :
    termUnique (runOps [Op.addOp "a".data "d".data, Op.removeOp "a".data,
        Op.addOp "b".data "e".data]) ∧
      defUnique (runOps [Op.addOp "a".data "d".data, Op.removeOp "a".data,
        Op.addOp "b".data "e".data]) :=
  ⟨(uniqueness_after_ops _).1, (uniqueness_after_ops _).2 (by decide)⟩

/-- C1 counterexample: one import of a two-line file whose records share the
definition `d` produces a store holding two cards with equal definitions, so
definition uniqueness does not hold after every operation sequence. -/
theorem import_breaks_defUnique :
    ¬ defUnique (runOps [Op.importOp (some ["a=|=d=|=0".data, "b=|=d=|=0".data])]) := by
  decide

/-- A concrete two-card store satisfying the store invariant, used to
instantiate theorems. -/
def exampleStore : CardStore :=
  ⟨[("foo".data, ⟨"foo".data, "bar".data, 0⟩), ("baz".data, ⟨"baz".data, "qux".data, 0⟩)],
   [("bar".data, "foo".data), ("qux".data, "baz".data)]⟩

theorem remove_spec_witness :
    remove exampleStore "foo".data
        = .removed ⟨derase "foo".data exampleStore.flashcards,
            derase "bar".data exampleStore.definitions⟩ ∧
      remove (⟨derase "foo".data exampleStore.flashcards,
            derase "bar".data exampleStore.definitions⟩ : CardStore) "foo".data
        = .notFound ⟨derase "foo".data exampleStore.flashcards,
            derase "bar".data exampleStore.definitions⟩ :=
  (remove_spec exampleStore "foo".data (by decide)).2 ⟨"foo".data, "bar".data, 0⟩ (by decide)

theorem quiz_guess_outcomes_witness :
    (quizStep exampleStore "foo".data "qux".data).2
        = some (QuizResult.wrongOther "bar".data "baz".data) ∧
      alookup "foo".data (quizStep exampleStore "foo".data "qux".data).1.flashcards
        = some ⟨"foo".data, "bar".data, 0 + 1⟩ := by
  have h := (quiz_guess_outcomes exampleStore (by decide) "foo".data
      ⟨"foo".data, "bar".data, 0⟩ "qux".data (by decide)).2 (by decide)
  exact ⟨(h.2.1 ⟨"baz".data, "qux".data, 0⟩ (by decide) (by decide)).2, h.1⟩

theorem ask_selection_repeats_witness :
    ∃ sel, askSelection takeSample exampleStore 3 = .ok sel ∧ sel.length = 3 ∧
      (∀ i, i < 3 → sel[i]?
          = (exampleStore.flashcards.map (·.2))[i % exampleStore.flashcards.length]?) ∧
      (∀ c ∈ exampleStore.flashcards.map (·.2), c ∈ sel) :=
  ask_selection_repeats takeSample exampleStore 3 (by decide) (by decide)

theorem quiz_frame_witness :
    ((quizRun exampleStore [("foo".data, "zzz".data)]).1.definitions
        = exampleStore.definitions) ∧
      ((quizRun exampleStore [("foo".data, "zzz".data)]).1.flashcards.map
          (fun p => (p.1, p.2.term, p.2.definition))
        = exampleStore.flashcards.map fun p => (p.1, p.2.term, p.2.definition)) ∧
      (∀ t, t ∉ ([("foo".data, "zzz".data)].map (·.1)) →
        alookup t (quizRun exampleStore [("foo".data, "zzz".data)]).1.flashcards
          = alookup t exampleStore.flashcards) :=
  quiz_frame exampleStore [("foo".data, "zzz".data)]

end Flashcards

namespace Flashcards

/-- Does the string avoid starting with a whitespace character? -/
def headNotWS (l : Str) : Bool :=
  match l with
  | [] => true
  | c :: _ => !isWS c

theorem headNotWS_spec (l : Str) (h : headNotWS l = true) :
    ∀ c, l.head? = some c → isWS c = false := by
  intro c hc
  cases l with
  | nil => exact Option.noConfusion hc
  | cons c0 rest =>
    rw [List.head?_cons] at hc
    injection hc with hc
    subst hc
    simp only [headNotWS, Bool.not_eq_true'] at h
    exact h

theorem line_head_not_ws (t rest : Str) (hh : ∀ c, t.head? = some c → isWS c = false) :
    ∀ c, (t ++ ('=' :: rest)).head? = some c → isWS c = false := by
  intro c hc
  cases t with
  | nil =>
    rw [List.nil_append, List.head?_cons] at hc
    injection hc with hc
    subst hc
    decide
  | cons c0 t' =>
    rw [List.cons_append, List.head?_cons] at hc
    injection hc with hc
    subst hc
    exact hh c0 rfl

theorem line_last_not_ws (pre : Str) (ec : Int) :
    ∀ c, (pre ++ intToStr ec).getLast? = some c → isWS c = false := by
  intro c hc
  rw [List.getLast?_append_of_ne_nil _ (intToStr_ne_nil ec)] at hc
  exact intToStr_last_not_ws ec c hc

theorem parseLine_exportLine (t d : Str) (ec : Int)
    (ht : cleanChunk t = true) (hd : cleanChunk d = true)
    (hh : ∀ c, t.head? = some c → isWS c = false) :
    parseLine (t ++ (delim ++ (d ++ (delim ++ intToStr ec)))) = some (t, d, ec) := by
  have hstrip : pyStrip (t ++ (delim ++ (d ++ (delim ++ intToStr ec))))
      = t ++ (delim ++ (d ++ (delim ++ intToStr ec))) := by
    apply pyStrip_eq_self
    · exact line_head_not_ws t ('|' :: '=' :: (d ++ (delim ++ intToStr ec))) hh
    · intro c hc
      rw [show t ++ (delim ++ (d ++ (delim ++ intToStr ec)))
          = (t ++ (delim ++ (d ++ delim))) ++ intToStr ec by simp [List.append_assoc]] at hc
      exact line_last_not_ws (t ++ (delim ++ (d ++ delim))) ec c hc
  unfold parseLine
  rw [hstrip, splitDelim_line t d (intToStr ec) ht hd (intToStr_no_eq ec)]
  show (strToInt? (intToStr ec)).map (fun v => (t, d, v)) = some (t, d, ec)
  rw [strToInt?_intToStr]
  rfl

theorem importGo_export (cards : List (Str × Flashcard)) (s0 : CardStore) (n : Nat)
    (hTK : ∀ p ∈ cards, p.2.term = p.1)
    (hclean : ∀ p ∈ cards, cleanChunk p.2.term = true ∧ cleanChunk p.2.definition = true ∧
        headNotWS p.2.term = true)
    (hfresh : ∀ p ∈ cards, alookup p.1 s0.flashcards = none)
    (hnd : (cards.map (·.1)).Nodup) :
    ∃ s', importGo (cards.map fun p =>
          p.2.term ++ (delim ++ (p.2.definition ++ (delim ++ intToStr p.2.error_count))))
          s0 n
        = .ok s' (n + cards.length) ∧
      s'.flashcards = s0.flashcards ++ cards.map fun p => (p.2.term, p.2) := by
  induction cards generalizing s0 n with
  | nil => exact ⟨s0, rfl, by simp⟩
  | cons p rest ih =>
    obtain ⟨hct, hcd, hch⟩ := hclean p (List.mem_cons_self _ _)
    have hparse := parseLine_exportLine p.2.term p.2.definition p.2.error_count hct hcd
      (headNotWS_spec _ hch)
    simp only [List.map_cons, List.nodup_cons] at hnd
    have hkey : p.2.term = p.1 := hTK p (List.mem_cons_self _ _)
    have hfr : alookup p.2.term s0.flashcards = none := by
      rw [hkey]
      exact hfresh p (List.mem_cons_self _ _)
    have hsrfc : (storeRecord s0 p.2.term p.2.definition p.2.error_count).flashcards
        = s0.flashcards ++ [(p.2.term, p.2)] := by
      show dinsert p.2.term (⟨p.2.term, p.2.definition, p.2.error_count⟩ : Flashcard)
        s0.flashcards = _
      rw [dinsert_fresh _ _ _ hfr]
    have hstep : importGo ((p.2.term ++ (delim ++ (p.2.definition
          ++ (delim ++ intToStr p.2.error_count))))
          :: rest.map fun q =>
            q.2.term ++ (delim ++ (q.2.definition ++ (delim ++ intToStr q.2.error_count))))
          s0 n
        = importGo (rest.map fun q =>
            q.2.term ++ (delim ++ (q.2.definition ++ (delim ++ intToStr q.2.error_count))))
          (storeRecord s0 p.2.term p.2.definition p.2.error_count) (n + 1) := by
      simp only [importGo, hparse]
    obtain ⟨s', hok, hfc⟩ := ih (storeRecord s0 p.2.term p.2.definition p.2.error_count)
      (n + 1)
      (fun q hq => hTK q (List.mem_cons_of_mem _ hq))
      (fun q hq => hclean q (List.mem_cons_of_mem _ hq))
      (fun q hq => by
        rw [alookup_eq_none, hsrfc, List.map_append]
        intro hmem
        rcases List.mem_append.mp hmem with h1 | h1
        · exact (alookup_eq_none q.1 s0.flashcards).mp
            (hfresh q (List.mem_cons_of_mem _ hq)) h1
        · simp only [List.map_cons, List.map_nil, List.mem_singleton] at h1
          rw [hkey] at h1
          exact hnd.1 (h1 ▸ List.mem_map.mpr ⟨q, hq, rfl⟩)
        )
      hnd.2
    refine ⟨s', ?_, ?_⟩
    · rw [List.map_cons, hstep, hok]
      congr 1
      simp only [List.length_cons]
      omega
    · rw [hfc, hsrfc, List.append_assoc, List.map_cons]
      rfl

/-- The (term, definition, error count) triples of a store, in order. -/
def triples (s : CardStore) : List (Str × Str × Int) :=
  s.flashcards.map fun p => (p.2.term, p.2.definition, p.2.error_count)

/-- The store holding the single card `" a" → "d"`. -/
def spaceStore : CardStore :=
  ⟨[(" a".data, ⟨" a".data, "d".data, 0⟩)], [("d".data, " a".data)]⟩

/-- C4 counterexample: the term `" a"` begins with a space and contains no
delimiter, yet the round trip loses the space: `import_file` strips every
line, so the re-imported triples differ from the original ones. -/
theorem roundtrip_strip_counterexample :
    triples (import_file (some (exportLines spaceStore)) emptyStore).store
      ≠ triples spaceStore := by
  decide

/-- C4 (amended): for every well-formed store (unique terms, cards keyed by
their terms) in which no term starts with whitespace and no term or
definition contains the delimiter or completes one at a field boundary,
export followed by import into a fresh empty store succeeds and reproduces
exactly the original (term, definition, error_count) triples. -/
theorem export_import_roundtrip (s : CardStore)
    (hTU : termUnique s)
    (hTK : ∀ p ∈ s.flashcards, p.2.term = p.1)
    (hclean : ∀ p ∈ s.flashcards, cleanChunk p.2.term = true ∧
        cleanChunk p.2.definition = true ∧ headNotWS p.2.term = true) :
    ∃ s', import_file (some (exportLines s)) emptyStore = .ok s' s.flashcards.length ∧
      triples s' = triples s := by
  obtain ⟨s', hok, hfc⟩ := importGo_export s.flashcards emptyStore 0 hTK hclean
    (fun q hq => rfl) hTU
  refine ⟨s', ?_, ?_⟩
  · show importGo (exportLines s) emptyStore 0 = .ok s' s.flashcards.length
    rw [show exportLines s = s.flashcards.map (fun p =>
        p.2.term ++ (delim ++ (p.2.definition ++ (delim ++ intToStr p.2.error_count))))
      from rfl]
    rw [hok]
    congr 1
    omega
  · rw [triples, hfc]
    show (([] : List (Str × Flashcard))
        ++ s.flashcards.map fun p => (p.2.term, p.2)).map
          (fun p => (p.2.term, p.2.definition, p.2.error_count)) = triples s
    rw [List.nil_append, List.map_map]
    rfl

theorem export_import_roundtrip_witness :
    ∃ s', import_file (some (exportLines exampleStore)) emptyStore
        = .ok s' exampleStore.flashcards.length ∧
      triples s' = triples exampleStore :=
  export_import_roundtrip exampleStore (by decide) (by decide) (by decide)

end Flashcards
